import Mathlib

/-!
Verification of the CARLA espresso-brewing reinforcement-learning core
(`src/carla/models.py`, `src/carla/env.py`, `src/carla/agent.py`).

Python floats are modelled as rationals (`ℚ`), Python ints as `ℤ`,
nullable fields as `Option`, dictionaries as insertion-ordered
association lists.  `int(x)` truncation and `round(x)` banker's
rounding are modelled explicitly.
-/

namespace Carla

/-- Python `int(q)`: truncation toward zero. -/
def pyInt (q : ℚ) : ℤ := if q < 0 then ⌈q⌉ else ⌊q⌋

/-- Python 3 `round(q)`: round half to even. -/
def pyRound (q : ℚ) : ℤ :=
  let f := ⌊q⌋
  let r := q - (f : ℚ)
  if r < 1/2 then f
  else if 1/2 < r then f + 1
  else if f % 2 = 0 then f else f + 1

/-! ## models.py -/

/-- Rating constant `MIN_RATING` from models.py. -/
def MIN_RATING : ℤ := 1

/-- Rating constant `MAX_RATING` from models.py. -/
def MAX_RATING : ℤ := 10

/-- `BrewAction` dataclass: the three brewing parameters. -/
structure BrewAction where
  grind_size : ℚ
  brew_volume : ℚ
  coffee_dose : ℚ
deriving DecidableEq, Repr

/-- `BrewState` dataclass: the brewing context. -/
structure BrewState where
  is_first_brew : Bool
  days_since_roast : ℤ
deriving DecidableEq, Repr

/-- `BrewEvaluation` dataclass fields (validation is modelled by
`mkBrewEvaluation` below, mirroring `__post_init__`). -/
structure BrewEvaluation where
  bitterness : Option ℤ := none
  acidity : Option ℤ := none
  taste_strength : Option ℤ := none
  overall_experience : Option ℤ := none
  brew_time : Option ℚ := none
  channeling : Option ℤ := none
deriving DecidableEq, Repr

/-- One step of the validation loop in `BrewEvaluation.__post_init__`:
checks a single nullable rating field against `[MIN_RATING, MAX_RATING]`,
producing the `ValueError` message when it is out of range. -/
def checkRating (field_name : String) (value : Option ℤ) : Option String :=
  match value with
  | none => none
  | some v =>
    if ¬ (MIN_RATING ≤ v ∧ v ≤ MAX_RATING) then
      some (field_name ++ " must be between " ++ toString MIN_RATING ++ " and "
            ++ toString MAX_RATING ++ ", got " ++ toString v)
    else none

/-- `BrewEvaluation.__post_init__` as a smart constructor: validates the
five rating fields in source order, then the brew time; raises
(`Except.error`) on the first violation, otherwise returns the evaluation
with every field exactly as provided. -/
def mkBrewEvaluation (bitterness acidity taste_strength overall_experience : Option ℤ)
    (brew_time : Option ℚ) (channeling : Option ℤ) : Except String BrewEvaluation :=
  match checkRating "bitterness" bitterness with
  | some msg => .error msg
  | none =>
  match checkRating "acidity" acidity with
  | some msg => .error msg
  | none =>
  match checkRating "taste_strength" taste_strength with
  | some msg => .error msg
  | none =>
  match checkRating "overall_experience" overall_experience with
  | some msg => .error msg
  | none =>
  match checkRating "channeling" channeling with
  | some msg => .error msg
  | none =>
  match brew_time with
  | some t =>
    if t ≤ 0 then .error ("brew_time must be positive, got " ++ toString t)
    else .ok { bitterness := bitterness, acidity := acidity,
               taste_strength := taste_strength,
               overall_experience := overall_experience,
               brew_time := brew_time, channeling := channeling }
  | none => .ok { bitterness := bitterness, acidity := acidity,
                  taste_strength := taste_strength,
                  overall_experience := overall_experience,
                  brew_time := brew_time, channeling := channeling }

/-! ## env.py constants -/

def IDEAL_METRIC_MIN : ℤ := 5

def IDEAL_METRIC_MAX : ℤ := 6

def ACCEPTABLE_METRIC_MIN : ℤ := 4

def ACCEPTABLE_METRIC_MAX : ℤ := 7

def LOW_CHANNELING_THRESHOLD : ℤ := 3

def HIGH_CHANNELING_THRESHOLD : ℤ := 7

def IDEAL_BREW_TIME_MIN : ℚ := 25

def IDEAL_BREW_TIME_MAX : ℚ := 35

def MIN_BREW_TIME : ℚ := 20

def MAX_BREW_TIME : ℚ := 45

/-- `GRIND_SIZE_BOUNDS = (1, 30)`. -/
def GRIND_SIZE_BOUNDS : ℚ × ℚ := (1, 30)

/-- `BREW_VOLUME_BOUNDS = (25.0, 50.0)`. -/
def BREW_VOLUME_BOUNDS : ℚ × ℚ := (25, 50)

/-- `COFFEE_DOSE_BOUNDS = (15.0, 25.0)`. -/
def COFFEE_DOSE_BOUNDS : ℚ × ℚ := (15, 25)

def GRIND_SIZE_STEPS : ℤ := 30

def BREW_VOLUME_STEPS : ℤ := 10

def COFFEE_DOSE_STEPS : ℤ := 10

/-! ## env.py : BrewingEnvironment -/

/-- `BrewingEnvironment.state_to_key`:
`f"{state.is_first_brew}_{min(state.days_since_roast, 30)}"`. -/
def state_to_key (state : BrewState) : String :=
  (if state.is_first_brew then "True" else "False") ++ "_"
    ++ toString (min state.days_since_roast 30)

/-- `BrewingEnvironment._discretize_grind`. -/
def _discretize_grind (grind_size : ℚ) : ℤ :=
  let min_val := GRIND_SIZE_BOUNDS.1
  let max_val := GRIND_SIZE_BOUNDS.2
  let idx := pyInt ((grind_size - min_val) / (max_val - min_val) * ((GRIND_SIZE_STEPS : ℚ) - 1))
  max 0 (min (GRIND_SIZE_STEPS - 1) idx)

/-- `BrewingEnvironment._discretize_volume`. -/
def _discretize_volume (brew_volume : ℚ) : ℤ :=
  let min_val := BREW_VOLUME_BOUNDS.1
  let max_val := BREW_VOLUME_BOUNDS.2
  let idx := pyInt ((brew_volume - min_val) / (max_val - min_val) * ((BREW_VOLUME_STEPS : ℚ) - 1))
  max 0 (min (BREW_VOLUME_STEPS - 1) idx)

/-- `BrewingEnvironment._discretize_dose`. -/
def _discretize_dose (coffee_dose : ℚ) : ℤ :=
  let min_val := COFFEE_DOSE_BOUNDS.1
  let max_val := COFFEE_DOSE_BOUNDS.2
  let idx := pyInt ((coffee_dose - min_val) / (max_val - min_val) * ((COFFEE_DOSE_STEPS : ℚ) - 1))
  max 0 (min (COFFEE_DOSE_STEPS - 1) idx)

/-- `BrewingEnvironment._undiscretize_grind`: `int(round(...))` (Python
`round` already yields an integer, so `int` is identity). -/
def _undiscretize_grind (idx : ℤ) : ℤ :=
  let min_val := GRIND_SIZE_BOUNDS.1
  let max_val := GRIND_SIZE_BOUNDS.2
  pyRound (min_val + ((idx : ℚ) / ((GRIND_SIZE_STEPS : ℚ) - 1)) * (max_val - min_val))

/-- `BrewingEnvironment._undiscretize_volume`. -/
def _undiscretize_volume (idx : ℤ) : ℚ :=
  let min_val := BREW_VOLUME_BOUNDS.1
  let max_val := BREW_VOLUME_BOUNDS.2
  min_val + ((idx : ℚ) / ((BREW_VOLUME_STEPS : ℚ) - 1)) * (max_val - min_val)

/-- `BrewingEnvironment._undiscretize_dose`. -/
def _undiscretize_dose (idx : ℤ) : ℚ :=
  let min_val := COFFEE_DOSE_BOUNDS.1
  let max_val := COFFEE_DOSE_BOUNDS.2
  min_val + ((idx : ℚ) / ((COFFEE_DOSE_STEPS : ℚ) - 1)) * (max_val - min_val)

/-- `BrewingEnvironment.action_to_key`: `f"{g}_{v}_{d}"` over the three
discretized indices. -/
def action_to_key (action : BrewAction) : String :=
  toString (_discretize_grind action.grind_size) ++ "_"
    ++ toString (_discretize_volume action.brew_volume) ++ "_"
    ++ toString (_discretize_dose action.coffee_dose)

/-- `BrewingEnvironment.action_from_indices`. -/
def action_from_indices (grind_idx volume_idx dose_idx : ℤ) : BrewAction :=
  { grind_size := (_undiscretize_grind grind_idx : ℚ)
    brew_volume := _undiscretize_volume volume_idx
    coffee_dose := _undiscretize_dose dose_idx }

/-- `BrewingEnvironment.get_baseline_action`: fixed neutral action. -/
def get_baseline_action (_state : BrewState) : BrewAction :=
  { grind_size := 15, brew_volume := 40, coffee_dose := 18 }

/-- `BrewingEnvironment._calculate_metrics_reward`: per-metric scores of
the present taste metrics, averaged; `0.0` when none is present. -/
def _calculate_metrics_reward (evaluation : BrewEvaluation) : ℚ :=
  let metrics : List ℚ :=
    [evaluation.bitterness, evaluation.acidity, evaluation.taste_strength].foldl
      (fun acc value =>
        match value with
        | none => acc
        | some v =>
          if IDEAL_METRIC_MIN ≤ v ∧ v ≤ IDEAL_METRIC_MAX then acc ++ [1/2]
          else if ACCEPTABLE_METRIC_MIN ≤ v ∧ v ≤ ACCEPTABLE_METRIC_MAX then acc ++ [1/5]
          else acc ++ [-(1/5)]) []
  if metrics.length ≠ 0 then metrics.sum / (metrics.length : ℚ) else 0

/-- `BrewingEnvironment._calculate_channeling_bonus`. -/
def _calculate_channeling_bonus (evaluation : BrewEvaluation) : ℚ :=
  match evaluation.channeling with
  | none => 0
  | some c =>
    if c ≤ LOW_CHANNELING_THRESHOLD then 1/10
    else if HIGH_CHANNELING_THRESHOLD ≤ c then -(1/5)
    else 0

/-- `BrewingEnvironment._calculate_brew_time_bonus`. -/
def _calculate_brew_time_bonus (evaluation : BrewEvaluation) : ℚ :=
  match evaluation.brew_time with
  | none => 0
  | some t =>
    if IDEAL_BREW_TIME_MIN ≤ t ∧ t ≤ IDEAL_BREW_TIME_MAX then 1/10
    else if t < MIN_BREW_TIME ∨ MAX_BREW_TIME < t then -(1/10)
    else 0

/-- `BrewingEnvironment.calculate_reward`. -/
def calculate_reward (evaluation : BrewEvaluation) : ℚ :=
  let reward :=
    match evaluation.overall_experience with
    | some o => ((o : ℚ) - 5.5) / 4.5
    | none => _calculate_metrics_reward evaluation
  let reward := reward + _calculate_channeling_bonus evaluation
  let reward := reward + _calculate_brew_time_bonus evaluation
  max (-1) (min 1 reward)

/-! ## agent.py : Q-table representation

The Python Q-table is `defaultdict(lambda: defaultdict(float))`; we model
it as an insertion-ordered association list of rows, each row an
insertion-ordered association list of `(action_key, value)` entries.
Reading `q_table[s]` on a missing key auto-vivifies an empty row at the
end (dict insertion order), which the model makes explicit. -/

/-- A Q-table row: insertion-ordered `action_key ↦ value` entries. -/
abbrev QRow := List (String × ℚ)

/-- The Q-table: insertion-ordered `state_key ↦ row` entries. -/
abbrev QTable := List (String × QRow)

/-- First value stored under `key` in a row, if any. -/
def rowFind (row : QRow) (key : String) : Option ℚ :=
  match row with
  | [] => none
  | (k, v) :: rest => if k = key then some v else rowFind rest key

/-- The row stored under `key` in a table, if any. -/
def tableFindRow (table : QTable) (key : String) : Option QRow :=
  match table with
  | [] => none
  | (k, r) :: rest => if k = key then some r else tableFindRow rest key

/-- `q_table[s][a]` as a pure read with the defaultdict's `0.0` default. -/
def tableGet (table : QTable) (state_key action_key : String) : ℚ :=
  match tableFindRow table state_key with
  | none => 0
  | some row => (rowFind row action_key).getD 0

/-- `q_table[s]` as a defaultdict read: returns the row and the table
after the read, with an empty row vivified at the end when missing. -/
def getRowVivify (table : QTable) (state_key : String) : QRow × QTable :=
  match tableFindRow table state_key with
  | some row => (row, table)
  | none => ([], table ++ [(state_key, [])])

/-- Set `row[a] = v`: update in place if present, else append. -/
def rowSet (row : QRow) (action_key : String) (v : ℚ) : QRow :=
  match row with
  | [] => [(action_key, v)]
  | (k, w) :: rest =>
    if k = action_key then (k, v) :: rest else (k, w) :: rowSet rest action_key v

/-- Set `q_table[s][a] = v` with defaultdict vivification semantics. -/
def tableSet (table : QTable) (state_key action_key : String) (v : ℚ) : QTable :=
  match table with
  | [] => [(state_key, [(action_key, v)])]
  | (k, r) :: rest =>
    if k = state_key then (k, rowSet r action_key v) :: rest
    else (k, r) :: tableSet rest state_key action_key v

/-! ## agent.py : BrewingAgent -/

/-- `BrewingAgent` mutable state and configuration (defaults from
`__init__`). -/
structure BrewingAgent where
  learning_rate : ℚ := 1/10
  discount_factor : ℚ := 95/100
  epsilon : ℚ := 1/10
  epsilon_decay : ℚ := 995/1000
  min_epsilon : ℚ := 1/100
  q_table : QTable := []
  last_state_key : Option String := none
  last_action_key : Option String := none
deriving DecidableEq, Repr

/-- `key.split("_")` modelled on the string's character list: split at
every underscore, keeping empty parts, exactly as Python's `str.split`
with an explicit separator does. -/
def splitUnderscore : List Char → List (List Char)
  | [] => [[]]
  | c :: rest =>
    if c = '_' then [] :: splitUnderscore rest
    else
      match splitUnderscore rest with
      | [] => [[c]]
      | h :: t => (c :: h) :: t

/-- Decimal digit accumulator for `parseIntChars`. -/
def parseDigitsAux : List Char → ℕ → Option ℕ
  | [], acc => some acc
  | c :: cs, acc =>
    if c.isDigit then parseDigitsAux cs (acc * 10 + (c.toNat - Char.toNat '0'))
    else none

/-- Python `int(part)` on an underscore-free, whitespace-free part (the
only shape `key.split("_")` can produce from agent-written keys): an
optional sign followed by one or more decimal digits; `none` models the
`ValueError` on anything else. -/
def parseIntChars : List Char → Option ℤ
  | [] => none
  | c :: rest =>
    if c = '-' then
      match rest with
      | [] => none
      | _ => (parseDigitsAux rest 0).map (fun n => -(n : ℤ))
    else if c = '+' then
      match rest with
      | [] => none
      | _ => (parseDigitsAux rest 0).map (fun n => (n : ℤ))
    else (parseDigitsAux (c :: rest) 0).map (fun n => (n : ℤ))

/-- `map(int, best_action_key.split("_"))` unpacked into exactly three
indices; `none` models the caught `(ValueError, IndexError)` for a wrong
field count or a non-numeric part. -/
def parse_action_key (key : String) : Option (ℤ × ℤ × ℤ) :=
  match (splitUnderscore key.data).mapM parseIntChars with
  | some [g, v, d] => some (g, v, d)
  | _ => none

/-- Python `max(keys, key=lambda k: row[k])` over an insertion-ordered
row: first entry attaining the maximal value wins. -/
def argmaxEntry (best : String × ℚ) : QRow → String × ℚ
  | [] => best
  | x :: xs => argmaxEntry (if best.2 < x.2 then x else best) xs

/-- `BrewingAgent._get_best_action`: reads `q_table[state_key]`
(vivifying), returns the baseline on an empty row or a malformed best
key, else the undiscretized best action.  Returns the table after the
read since the defaultdict read mutates it. -/
def get_best_action (table : QTable) (state_key : String) (state : BrewState) :
    BrewAction × QTable :=
  let (row, table') := getRowVivify table state_key
  match row with
  | [] => (get_baseline_action state, table')
  | e :: rest =>
    let best_action_key := (argmaxEntry e rest).1
    match parse_action_key best_action_key with
    | some (g, v, d) => (action_from_indices g v d, table')
    | none => (get_baseline_action state, table')

/-- `BrewingAgent.suggest_action`, with the `random.random()` draw and
the candidate random action passed in explicitly: explores when
`draw < epsilon`, else exploits; records the pending cursor. -/
def suggest_action (ag : BrewingAgent) (state : BrewState)
    (draw : ℚ) (rand_action : BrewAction) : BrewAction × BrewingAgent :=
  let state_key := state_to_key state
  let (action, table') :=
    if draw < ag.epsilon then (rand_action, ag.q_table)
    else get_best_action ag.q_table state_key state
  (action,
   { ag with q_table := table',
             last_state_key := some state_key,
             last_action_key := some (action_to_key action) })

/-- `BrewingAgent.learn_from_evaluation`: no-op without a pending
cursor; otherwise applies the single-step update at the cursor and
decays epsilon. -/
def learn_from_evaluation (ag : BrewingAgent) (evaluation : BrewEvaluation) :
    BrewingAgent :=
  match ag.last_state_key, ag.last_action_key with
  | some s, some a =>
    let reward := calculate_reward evaluation
    let current_q := tableGet ag.q_table s a
    let new_q := current_q + ag.learning_rate * (reward - current_q)
    { ag with q_table := tableSet ag.q_table s a new_q,
              epsilon := max ag.min_epsilon (ag.epsilon * ag.epsilon_decay) }
  | _, _ => ag

/-- `BrewingAgent.get_q_table`: snapshot of the table (the defaultdict →
plain dict conversion is the identity on this representation; empty
vivified rows are included, as in the Python dict comprehension). -/
def get_q_table (ag : BrewingAgent) : QTable := ag.q_table

/-- Body of `BrewingAgent.load_q_table`: rebuilds a fresh table by
inserting every entry of the given data in iteration order (rows with no
entries are dropped, since the inner loop never touches them). -/
def loadedTable (q_table_data : QTable) : QTable :=
  q_table_data.foldl
    (fun t sa => sa.2.foldl (fun t' av => tableSet t' sa.1 av.1 av.2) t) []

/-- `BrewingAgent.load_q_table` applied to an agent. -/
def load_q_table (ag : BrewingAgent) (q_table_data : QTable) : BrewingAgent :=
  { ag with q_table := loadedTable q_table_data }

/-- Stable insertion of an entry into a value-descending row (later
equal values go after earlier ones, as with Python's stable `sorted`
with `reverse=True`). -/
def insertDesc (x : String × ℚ) : QRow → QRow
  | [] => [x]
  | y :: ys => if y.2 < x.2 then x :: y :: ys else y :: insertDesc x ys

/-- `sorted(row.items(), key=value, reverse=True)`: stable descending
sort by value. -/
def sortDescByValue (row : QRow) : QRow :=
  row.foldl (fun acc x => insertDesc x acc) []

/-- `BrewingAgent.get_action_recommendations`: top-k entries of the
state's row by value, skipping malformed keys; baseline on an empty row
or when nothing parseable remains.  The defaultdict read vivifies. -/
def get_action_recommendations (ag : BrewingAgent) (state : BrewState)
    (top_k : ℕ := 3) : List (BrewAction × ℚ) × BrewingAgent :=
  let state_key := state_to_key state
  let (row, table') := getRowVivify ag.q_table state_key
  let ag' := { ag with q_table := table' }
  match row with
  | [] => ([(get_baseline_action state, 0)], ag')
  | _ :: _ =>
    let sorted_actions := (sortDescByValue row).take top_k
    let recommendations := sorted_actions.filterMap (fun av =>
      match parse_action_key av.1 with
      | some (g, v, d) => some (action_from_indices g v d, av.2)
      | none => none)
    match recommendations with
    | [] => ([(get_baseline_action state, 0)], ag')
    | _ :: _ => (recommendations, ag')

/-- `BrewingAgent.reset_last_action`: clears the pending cursor. -/
def reset_last_action (ag : BrewingAgent) : BrewingAgent :=
  { ag with last_state_key := none, last_action_key := none }

/-! ## Specification-side definitions and trace instrumentation -/

/-- All state keys reachable from contexts with non-negative
`days_since_roast`: the image of the 62 clamped (day, flag) pairs. -/
def allStateKeys : Finset String :=
  ((Finset.Icc (0:ℤ) 30) ×ˢ ({false, true} : Finset Bool)).image
    (fun p => state_to_key ⟨p.2, p.1⟩)

/-- `clamp(x, lo, hi)` as in the spec's `clamp(..., -1.0, 1.0)`. -/
def clamp (lo hi x : ℚ) : ℚ := max lo (min hi x)

/-- Spec wording: per-metric score, `+0.5` in `[5,6]`, `+0.2` in `[4,7]`,
else `-0.2`. -/
def specMetricScore (v : ℤ) : ℚ :=
  if 5 ≤ v ∧ v ≤ 6 then 1/2 else if 4 ≤ v ∧ v ≤ 7 then 1/5 else -(1/5)

/-- Spec wording: primary term of the reward. -/
def specPrimary (ev : BrewEvaluation) : ℚ :=
  match ev.overall_experience with
  | some o => ((o : ℚ) - 5.5) / 4.5
  | none =>
    match [ev.bitterness, ev.acidity, ev.taste_strength].filterMap id with
    | [] => 0
    | present => (present.map specMetricScore).sum / (present.length : ℚ)

/-- Spec wording: channeling adjustment. -/
def specChannelingAdj (ev : BrewEvaluation) : ℚ :=
  match ev.channeling with
  | none => 0
  | some c => if c ≤ 3 then 1/10 else if 7 ≤ c then -(1/5) else 0

/-- Spec wording: brew-time adjustment. -/
def specBrewTimeAdj (ev : BrewEvaluation) : ℚ :=
  match ev.brew_time with
  | none => 0
  | some t => if 25 ≤ t ∧ t ≤ 35 then 1/10 else if t < 20 ∨ 45 < t then -(1/10) else 0

/-- Spec wording: the final reward. -/
def reward_spec (ev : BrewEvaluation) : ℚ :=
  clamp (-1) 1 (specPrimary ev + specChannelingAdj ev + specBrewTimeAdj ev)

/-- Every provided value of a nullable rating lies in
`[MIN_RATING, MAX_RATING]`. -/
def ratingOk (x : Option ℤ) : Prop :=
  ∀ v, x = some v → MIN_RATING ≤ v ∧ v ≤ MAX_RATING

/-- One external call to the agent, with any random draws passed in
explicitly so two agents can be driven with identical randomness. -/
inductive AgentEvent where
  | suggest (state : BrewState) (draw : ℚ) (rand_action : BrewAction)
  | learn (evaluation : BrewEvaluation)
  | best (state : BrewState) (top_k : ℕ)
  | snapshot
  | reset
deriving DecidableEq, Repr

/-- What one call returns to the caller. -/
inductive AgentOutput where
  | action (a : BrewAction)
  | recs (l : List (BrewAction × ℚ))
  | table (t : QTable)
  | done
deriving DecidableEq, Repr

/-- Dispatch one call on the agent. -/
def agentStep (ag : BrewingAgent) : AgentEvent → BrewingAgent × AgentOutput
  | .suggest st draw ra =>
    let (a, ag') := suggest_action ag st draw ra
    (ag', .action a)
  | .learn ev => (learn_from_evaluation ag ev, .done)
  | .best st k =>
    let (l, ag') := get_action_recommendations ag st k
    (ag', .recs l)
  | .snapshot => (ag, .table (get_q_table ag))
  | .reset => (reset_last_action ag, .done)

/-- Run a whole call sequence, collecting the outputs. -/
def agentRun (ag : BrewingAgent) : List AgentEvent → BrewingAgent × List AgentOutput
  | [] => (ag, [])
  | e :: es =>
    let (ag', out) := agentStep ag e
    let (agF, outs) := agentRun ag' es
    (agF, out :: outs)

/-! ## Helper lemmas about the Q-table representation -/

theorem rowFind_rowSet_same (row : QRow) (a : String) (v : ℚ) :
    rowFind (rowSet row a v) a = some v := by
  induction row with
  | nil => simp [rowSet, rowFind]
  | cons e rest ih =>
    by_cases h : e.1 = a
    · simp [rowSet, h, rowFind]
    · simp [rowSet, h, rowFind, ih]

theorem tableGet_tableSet_same (t : QTable) (s a : String) (v : ℚ) :
    tableGet (tableSet t s a v) s a = v := by
  induction t with
  | nil => simp [tableSet, tableGet, tableFindRow, rowFind, rowSet]
  | cons e rest ih =>
    by_cases h : e.1 = s
    · simp [tableSet, h, tableGet, tableFindRow, rowFind_rowSet_same]
    · simpa [tableSet, h, tableGet, tableFindRow] using ih

theorem tableFindRow_append_single_of_none (t : QTable) (s : String)
    (h : tableFindRow t s = none) :
    tableFindRow (t ++ [(s, [])]) s = some [] := by
  induction t with
  | nil => simp [tableFindRow]
  | cons e rest ih =>
    obtain ⟨k, r⟩ := e
    by_cases he : k = s
    · simp [tableFindRow, he] at h
    · simp only [List.cons_append, tableFindRow, he, if_false] at h ⊢
      exact ih h

theorem tableGet_append_empty_row (t : QTable) (s s' a' : String) :
    tableGet (t ++ [(s, [])]) s' a' = tableGet t s' a' := by
  induction t with
  | nil =>
    by_cases h : s = s' <;> simp [tableGet, tableFindRow, rowFind, h]
  | cons e rest ih =>
    by_cases he : e.1 = s'
    · simp [tableGet, tableFindRow, he]
    · simpa [tableGet, tableFindRow, he] using ih

/-- `learn_from_evaluation` with a pending cursor, unfolded. -/
theorem learn_pending (ag : BrewingAgent) (ev : BrewEvaluation) (s a : String)
    (hs : ag.last_state_key = some s) (ha : ag.last_action_key = some a) :
    learn_from_evaluation ag ev =
      { ag with
        q_table := tableSet ag.q_table s a
          (tableGet ag.q_table s a
            + ag.learning_rate * (calculate_reward ev - tableGet ag.q_table s a)),
        epsilon := max ag.min_epsilon (ag.epsilon * ag.epsilon_decay) } := by
  unfold learn_from_evaluation
  rw [hs, ha]

/-! ## C2 : the single-step value update -/

/-- C2: with a pending cursor `(s, a)`, `learn` replaces the stored value
`old` (default `0.0`) by `old + learningRate * (reward - old)`; with
`old = 0` and learning rate `0.1` the new value is exactly `0.1 * reward`. -/
theorem learn_updates_cursor_value (ag : BrewingAgent) (ev : BrewEvaluation)
    (s a : String) (hs : ag.last_state_key = some s)
    (ha : ag.last_action_key = some a) :
    tableGet (learn_from_evaluation ag ev).q_table s a
      = tableGet ag.q_table s a
        + ag.learning_rate * (calculate_reward ev - tableGet ag.q_table s a)
    ∧ (tableGet ag.q_table s a = 0 → ag.learning_rate = 1/10 →
        tableGet (learn_from_evaluation ag ev).q_table s a
          = (1/10) * calculate_reward ev) := by
  have hmain : tableGet (learn_from_evaluation ag ev).q_table s a
      = tableGet ag.q_table s a
        + ag.learning_rate * (calculate_reward ev - tableGet ag.q_table s a) := by
    rw [learn_pending ag ev s a hs ha]
    exact tableGet_tableSet_same _ _ _ _
  refine ⟨hmain, fun h0 hlr => ?_⟩
  rw [hmain, h0, hlr]
  ring

/-- Witness for C2 at a concrete pending agent and evaluation. -/
theorem learn_updates_cursor_value_witness :
    tableGet (learn_from_evaluation
        { last_state_key := some "False_3", last_action_key := some "14_5_2" }
        { overall_experience := some 9 }).q_table "False_3" "14_5_2"
      = tableGet (BrewingAgent.q_table
          { last_state_key := some "False_3", last_action_key := some "14_5_2" })
          "False_3" "14_5_2"
        + (1/10) * (calculate_reward { overall_experience := some 9 }
            - tableGet (BrewingAgent.q_table
                { last_state_key := some "False_3", last_action_key := some "14_5_2" })
                "False_3" "14_5_2") :=
  (learn_updates_cursor_value
    { last_state_key := some "False_3", last_action_key := some "14_5_2" }
    { overall_experience := some 9 } "False_3" "14_5_2" rfl rfl).1

/-! ## C7 : learn without a pending cursor is a strict no-op -/

/-- C7: with no pending cursor, `learn` raises nothing and mutates
nothing: the agent is returned entirely unchanged, in particular its
value table, epsilon, and cursor. -/
theorem learn_no_cursor_noop (ag : BrewingAgent) (ev : BrewEvaluation)
    (h : ag.last_state_key = none ∨ ag.last_action_key = none) :
    learn_from_evaluation ag ev = ag
    ∧ (learn_from_evaluation ag ev).q_table = ag.q_table
    ∧ (learn_from_evaluation ag ev).epsilon = ag.epsilon
    ∧ (learn_from_evaluation ag ev).last_state_key = ag.last_state_key
    ∧ (learn_from_evaluation ag ev).last_action_key = ag.last_action_key := by
  have heq : learn_from_evaluation ag ev = ag := by
    unfold learn_from_evaluation
    rcases h with h | h
    · rw [h]
    · rw [h]
      cases ag.last_state_key <;> rfl
  exact ⟨heq, by rw [heq], by rw [heq], by rw [heq], by rw [heq]⟩

/-- Witness for C7 on a fresh default agent. -/
theorem learn_no_cursor_noop_witness :
    learn_from_evaluation {} {} = ({} : BrewingAgent) :=
  (learn_no_cursor_noop {} {} (Or.inl rfl)).1

/-! ## C5 : epsilon decay -/

theorem learn_keeps_config (ag : BrewingAgent) (ev : BrewEvaluation) :
    (learn_from_evaluation ag ev).min_epsilon = ag.min_epsilon
    ∧ (learn_from_evaluation ag ev).epsilon_decay = ag.epsilon_decay
    ∧ (learn_from_evaluation ag ev).last_state_key = ag.last_state_key
    ∧ (learn_from_evaluation ag ev).last_action_key = ag.last_action_key := by
  unfold learn_from_evaluation
  cases hs : ag.last_state_key <;> cases ha : ag.last_action_key <;> simp [hs, ha]

theorem iterate_learn_keeps_config (ag : BrewingAgent) (ev : BrewEvaluation)
    (n : ℕ) :
    ((fun b => learn_from_evaluation b ev)^[n] ag).min_epsilon = ag.min_epsilon
    ∧ ((fun b => learn_from_evaluation b ev)^[n] ag).epsilon_decay = ag.epsilon_decay
    ∧ ((fun b => learn_from_evaluation b ev)^[n] ag).last_state_key = ag.last_state_key
    ∧ ((fun b => learn_from_evaluation b ev)^[n] ag).last_action_key = ag.last_action_key := by
  induction n with
  | zero => simp
  | succ n ih =>
    rw [Function.iterate_succ_apply']
    obtain ⟨h1, h2, h3, h4⟩ := ih
    obtain ⟨g1, g2, g3, g4⟩ :=
      learn_keeps_config ((fun b => learn_from_evaluation b ev)^[n] ag) ev
    exact ⟨g1.trans h1, g2.trans h2, g3.trans h3, g4.trans h4⟩

/-- Epsilon after a pending `learn`. -/
theorem learn_epsilon_pending (ag : BrewingAgent) (ev : BrewEvaluation)
    (s a : String) (hs : ag.last_state_key = some s)
    (ha : ag.last_action_key = some a) :
    (learn_from_evaluation ag ev).epsilon
      = max ag.min_epsilon (ag.epsilon * ag.epsilon_decay) := by
  rw [learn_pending ag ev s a hs ha]

/-- Closed form of epsilon after `n+1` pending `learn` calls. -/
theorem iterate_learn_epsilon (ag : BrewingAgent) (ev : BrewEvaluation)
    (s a : String) (hs : ag.last_state_key = some s)
    (ha : ag.last_action_key = some a)
    (hd0 : 0 ≤ ag.epsilon_decay) (hd1 : ag.epsilon_decay ≤ 1)
    (hm : 0 ≤ ag.min_epsilon) (n : ℕ) :
    ((fun b => learn_from_evaluation b ev)^[n + 1] ag).epsilon
      = max ag.min_epsilon (ag.epsilon * ag.epsilon_decay ^ (n + 1)) := by
  induction n with
  | zero =>
    simpa using learn_epsilon_pending ag ev s a hs ha
  | succ n ih =>
    rw [Function.iterate_succ_apply']
    obtain ⟨h1, h2, h3, h4⟩ := iterate_learn_keeps_config ag ev (n + 1)
    have hstep := learn_epsilon_pending ((fun b => learn_from_evaluation b ev)^[n + 1] ag)
      ev s a (h3.trans hs) (h4.trans ha)
    rw [hstep, h1, h2, ih, max_mul_of_nonneg _ _ hd0, ← max_assoc]
    have hmd : ag.min_epsilon * ag.epsilon_decay ≤ ag.min_epsilon :=
      mul_le_of_le_one_right hm hd1
    rw [max_eq_left hmd, mul_assoc, ← pow_succ]

/-- The claim of C5 fails on the code at a concrete input: a fresh
default agent has no pending cursor, so `learn` leaves epsilon at `0.1`
instead of `max(0.01, 0.1 * 0.995) = 0.0995`. -/
theorem epsilon_decay_counterexample :
    (learn_from_evaluation {} {}).epsilon = 1/10
    ∧ max (BrewingAgent.min_epsilon {})
        (BrewingAgent.epsilon {} * BrewingAgent.epsilon_decay {}) = 199/2000
    ∧ (learn_from_evaluation {} {}).epsilon
        ≠ max (BrewingAgent.min_epsilon {})
            (BrewingAgent.epsilon {} * BrewingAgent.epsilon_decay {}) := by
  refine ⟨rfl, by norm_num, ?_⟩
  intro h
  have : (1/10 : ℚ) = 199/2000 := by
    calc (1/10 : ℚ) = (learn_from_evaluation {} {}).epsilon := rfl
    _ = max (BrewingAgent.min_epsilon {})
          (BrewingAgent.epsilon {} * BrewingAgent.epsilon_decay {}) := h
    _ = 199/2000 := by norm_num
  norm_num at this

/-- C5 (amended): after every `learn` call made with a pending cursor,
epsilon equals `max(minEpsilon, epsilon_before * epsilonDecay)`; and with
decay in `(0,1)` and positive `minEpsilon`, after sufficiently many such
calls epsilon reaches `minEpsilon` and remains there.  (`learn` without a
pending cursor is a no-op and does not decay epsilon.) -/
theorem epsilon_decay_amended (ag : BrewingAgent) (ev : BrewEvaluation)
    (s a : String) (hs : ag.last_state_key = some s)
    (ha : ag.last_action_key = some a)
    (hd0 : 0 < ag.epsilon_decay) (hd1 : ag.epsilon_decay < 1)
    (hm : 0 < ag.min_epsilon) :
    (learn_from_evaluation ag ev).epsilon
      = max ag.min_epsilon (ag.epsilon * ag.epsilon_decay)
    ∧ ∃ N : ℕ, ∀ n : ℕ, N ≤ n →
        ((fun b => learn_from_evaluation b ev)^[n] ag).epsilon = ag.min_epsilon := by
  refine ⟨learn_epsilon_pending ag ev s a hs ha, ?_⟩
  have key : ∀ n : ℕ, ag.epsilon * ag.epsilon_decay ^ (n + 1) ≤ ag.min_epsilon →
      ((fun b => learn_from_evaluation b ev)^[n + 1] ag).epsilon = ag.min_epsilon := by
    intro n hle
    rw [iterate_learn_epsilon ag ev s a hs ha hd0.le hd1.le hm.le n]
    exact max_eq_left hle
  by_cases he : ag.epsilon ≤ 0
  · refine ⟨1, fun n hn => ?_⟩
    obtain ⟨k, rfl⟩ := Nat.exists_eq_add_of_le hn
    rw [Nat.add_comm 1 k]
    refine key k ?_
    have : ag.epsilon * ag.epsilon_decay ^ (k + 1) ≤ 0 :=
      mul_nonpos_of_nonpos_of_nonneg he (pow_nonneg hd0.le _)
    exact this.trans hm.le
  · push_neg at he
    obtain ⟨N0, hN0⟩ :=
      exists_pow_lt_of_lt_one (div_pos hm he) hd1
    refine ⟨N0 + 1, fun n hn => ?_⟩
    obtain ⟨k, rfl⟩ := Nat.exists_eq_add_of_le hn
    have hrange : N0 ≤ N0 + k := Nat.le_add_right _ _
    rw [Nat.add_assoc, Nat.add_comm 1 k, ← Nat.add_assoc]
    refine key (N0 + k) ?_
    have hpow : ag.epsilon_decay ^ (N0 + k + 1) ≤ ag.epsilon_decay ^ N0 :=
      pow_le_pow_of_le_one hd0.le hd1.le (by omega)
    have : ag.epsilon * ag.epsilon_decay ^ (N0 + k + 1)
        ≤ ag.epsilon * ag.epsilon_decay ^ N0 :=
      mul_le_mul_of_nonneg_left hpow he.le
    refine this.trans ?_
    have := mul_lt_mul_of_pos_left hN0 he
    rw [mul_div_cancel₀ _ (ne_of_gt he)] at this
    exact this.le

/-- Witness for C5 (amended) on a concrete pending agent. -/
theorem epsilon_decay_amended_witness :
    (learn_from_evaluation
        { last_state_key := some "False_3", last_action_key := some "0_0_0" } {}).epsilon
      = max (BrewingAgent.min_epsilon
          { last_state_key := some "False_3", last_action_key := some "0_0_0" })
          (BrewingAgent.epsilon
            { last_state_key := some "False_3", last_action_key := some "0_0_0" }
            * BrewingAgent.epsilon_decay
              { last_state_key := some "False_3", last_action_key := some "0_0_0" })
    ∧ ∃ N : ℕ, ∀ n : ℕ, N ≤ n →
        ((fun b => learn_from_evaluation b {})^[n]
            { last_state_key := some "False_3", last_action_key := some "0_0_0" }).epsilon
          = BrewingAgent.min_epsilon
              { last_state_key := some "False_3", last_action_key := some "0_0_0" } :=
  epsilon_decay_amended
    { last_state_key := some "False_3", last_action_key := some "0_0_0" } {}
    "False_3" "0_0_0" rfl rfl (by norm_num) (by norm_num) (by norm_num)

/-! ## C4 : the state key -/

theorem state_to_key_min (s : BrewState) :
    state_to_key s = state_to_key ⟨s.is_first_brew, min s.days_since_roast 30⟩ := by
  simp [state_to_key, min_assoc]

theorem state_key_inj_aux :
    ∀ b1 : Bool, ∀ b2 : Bool, ∀ m1 ∈ Finset.Icc (0:ℤ) 30, ∀ m2 ∈ Finset.Icc (0:ℤ) 30,
      (state_to_key ⟨b1, m1⟩ = state_to_key ⟨b2, m2⟩ ↔ (b1 = b2 ∧ m1 = m2)) := by
  decide

theorem allStateKeys_card_le : allStateKeys.card ≤ 62 := by
  have h : ((Finset.Icc (0:ℤ) 30) ×ˢ ({false, true} : Finset Bool)).card = 62 := by
    decide
  calc allStateKeys.card
      ≤ ((Finset.Icc (0:ℤ) 30) ×ˢ ({false, true} : Finset Bool)).card :=
        Finset.card_image_le
    _ = 62 := h

/-- The claim of C4 fails on the code at a concrete input: the code
clamps with `min(days, 30)` only, so `days = -1` and `days = 0` have
equal `clamp(days, 0, 30)` but distinct keys. -/
theorem state_key_counterexample :
    max 0 (min (-1 : ℤ) 30) = max 0 (min (0 : ℤ) 30)
    ∧ (BrewState.is_first_brew ⟨false, -1⟩ = BrewState.is_first_brew ⟨false, 0⟩)
    ∧ state_to_key ⟨false, -1⟩ ≠ state_to_key ⟨false, 0⟩ := by
  decide

/-- C4 (amended): `stateKey` is a deterministic function of the context,
and over contexts with non-negative days-since-roast it is injective in
both directions in `(first-brew flag, min(days-since-roast, 30))`;
consequently it takes at most 62 distinct values over such contexts.
(The code clamps only from above with `min`; negative day counts produce
further distinct keys.) -/
theorem state_key_amended (s1 s2 : BrewState)
    (h1 : 0 ≤ s1.days_since_roast) (h2 : 0 ≤ s2.days_since_roast) :
    (state_to_key s1 = state_to_key s2 ↔
      (s1.is_first_brew = s2.is_first_brew
        ∧ min s1.days_since_roast 30 = min s2.days_since_roast 30))
    ∧ state_to_key s1 ∈ allStateKeys
    ∧ allStateKeys.card ≤ 62 := by
  have hm1 : min s1.days_since_roast 30 ∈ Finset.Icc (0:ℤ) 30 :=
    Finset.mem_Icc.2 ⟨le_min h1 (by norm_num), min_le_right _ _⟩
  have hm2 : min s2.days_since_roast 30 ∈ Finset.Icc (0:ℤ) 30 :=
    Finset.mem_Icc.2 ⟨le_min h2 (by norm_num), min_le_right _ _⟩
  refine ⟨?_, ?_, allStateKeys_card_le⟩
  · rw [state_to_key_min s1, state_to_key_min s2]
    exact state_key_inj_aux s1.is_first_brew s2.is_first_brew _ hm1 _ hm2
  · refine Finset.mem_image.2
      ⟨(min s1.days_since_roast 30, s1.is_first_brew), ?_, ?_⟩
    · exact Finset.mem_product.2 ⟨hm1, by cases s1.is_first_brew <;> simp⟩
    · exact (state_to_key_min s1).symm

/-- Witness for C4 (amended) at concrete contexts. -/
theorem state_key_amended_witness :
    ((state_to_key ⟨false, 5⟩ = state_to_key ⟨true, 40⟩ ↔
      (BrewState.is_first_brew ⟨false, 5⟩ = BrewState.is_first_brew ⟨true, 40⟩
        ∧ min (BrewState.days_since_roast ⟨false, 5⟩) 30
            = min (BrewState.days_since_roast ⟨true, 40⟩) 30))
    ∧ state_to_key ⟨false, 5⟩ ∈ allStateKeys
    ∧ allStateKeys.card ≤ 62) :=
  state_key_amended ⟨false, 5⟩ ⟨true, 40⟩ (by decide) (by decide)

/-! ## C1 : the reward function

`reward_spec` below follows the wording of the specification's reward
description, to be compared with `calculate_reward`, which is translated
from the source. -/

theorem chan_eq (ev : BrewEvaluation) :
    _calculate_channeling_bonus ev = specChannelingAdj ev := by
  unfold _calculate_channeling_bonus specChannelingAdj
    LOW_CHANNELING_THRESHOLD HIGH_CHANNELING_THRESHOLD
  rfl

theorem time_eq (ev : BrewEvaluation) :
    _calculate_brew_time_bonus ev = specBrewTimeAdj ev := by
  unfold _calculate_brew_time_bonus specBrewTimeAdj
    IDEAL_BREW_TIME_MIN IDEAL_BREW_TIME_MAX MIN_BREW_TIME MAX_BREW_TIME
  rfl

theorem metric_step_eq (acc : List ℚ) (v : ℤ) :
    (if IDEAL_METRIC_MIN ≤ v ∧ v ≤ IDEAL_METRIC_MAX then acc ++ [1/2]
     else if ACCEPTABLE_METRIC_MIN ≤ v ∧ v ≤ ACCEPTABLE_METRIC_MAX then acc ++ [1/5]
     else acc ++ [-(1/5)]) = acc ++ [specMetricScore v] := by
  unfold specMetricScore IDEAL_METRIC_MIN IDEAL_METRIC_MAX
    ACCEPTABLE_METRIC_MIN ACCEPTABLE_METRIC_MAX
  split_ifs <;> rfl

theorem metrics_fold_eq (l : List (Option ℤ)) :
    ∀ init : List ℚ,
      l.foldl (fun acc value =>
        match value with
        | none => acc
        | some v =>
          if IDEAL_METRIC_MIN ≤ v ∧ v ≤ IDEAL_METRIC_MAX then acc ++ [1/2]
          else if ACCEPTABLE_METRIC_MIN ≤ v ∧ v ≤ ACCEPTABLE_METRIC_MAX then acc ++ [1/5]
          else acc ++ [-(1/5)]) init
      = init ++ (l.filterMap id).map specMetricScore := by
  induction l with
  | nil => intro init; simp
  | cons x xs ih =>
    intro init
    cases x with
    | none => simpa using ih init
    | some v =>
      simp only [List.foldl_cons]
      rw [metric_step_eq, ih]
      simp

theorem metrics_eq (ev : BrewEvaluation) :
    _calculate_metrics_reward ev
      = (match [ev.bitterness, ev.acidity, ev.taste_strength].filterMap id with
         | [] => 0
         | present => (present.map specMetricScore).sum / (present.length : ℚ)) := by
  simp only [_calculate_metrics_reward]
  rw [metrics_fold_eq]
  cases hp : [ev.bitterness, ev.acidity, ev.taste_strength].filterMap id with
  | nil => simp
  | cons y ys => simp

theorem calculate_reward_eq (ev : BrewEvaluation) :
    calculate_reward ev = reward_spec ev := by
  cases ho : ev.overall_experience with
  | some v =>
    simp only [calculate_reward, reward_spec, clamp, specPrimary, ho,
      chan_eq, time_eq]
  | none =>
    simp only [calculate_reward, reward_spec, clamp, specPrimary, ho,
      chan_eq, time_eq, metrics_eq]

/-- C1: for every evaluation the code's reward equals the spec's
clamped sum of primary term, channeling adjustment, and brew-time
adjustment; it always lies in `[-1, 1]`; and it is exactly `0` when
every field is absent. -/
theorem calculate_reward_correct (ev : BrewEvaluation) :
    calculate_reward ev = reward_spec ev
    ∧ -1 ≤ calculate_reward ev ∧ calculate_reward ev ≤ 1
    ∧ calculate_reward {} = 0 := by
  refine ⟨calculate_reward_eq ev, le_max_left _ _,
    max_le (by norm_num) (min_le_left _ _), by
      norm_num [calculate_reward, _calculate_metrics_reward,
        _calculate_channeling_bonus, _calculate_brew_time_bonus]⟩

/-! ## C3 : discretization round-trips -/

theorem pyInt_intCast (n : ℤ) : pyInt ((n : ℤ) : ℚ) = n := by
  unfold pyInt
  split_ifs <;> simp

theorem pyRound_intCast (n : ℤ) : pyRound ((n : ℤ) : ℚ) = n := by
  unfold pyRound
  norm_num

theorem pyInt_eq_floor_of_nonneg (q : ℚ) (h : 0 ≤ q) : pyInt q = ⌊q⌋ := by
  unfold pyInt
  rw [if_neg (not_lt.2 h)]

/-- `undiscretize` of a valid grind index is the setting `idx + 1`. -/
theorem undiscretize_grind_eq (i : ℤ) : _undiscretize_grind i = i + 1 := by
  unfold _undiscretize_grind
  dsimp only [GRIND_SIZE_BOUNDS, GRIND_SIZE_STEPS]
  have harg : (1 : ℚ) + (i : ℚ) / (((30:ℤ) : ℚ) - 1) * (30 - 1) = ((i + 1 : ℤ) : ℚ) := by
    push_cast
    ring
  rw [harg, pyRound_intCast]

/-- `discretize` is exactly inverse to `undiscretize` on valid grind
indices. -/
theorem grind_roundtrip (i : ℤ) (h0 : 0 ≤ i) (h29 : i ≤ 29) :
    _discretize_grind ((_undiscretize_grind i : ℤ) : ℚ) = i := by
  rw [undiscretize_grind_eq]
  unfold _discretize_grind
  dsimp only [GRIND_SIZE_BOUNDS, GRIND_SIZE_STEPS]
  have harg : (((i + 1 : ℤ) : ℚ) - 1) / (30 - 1) * (((30:ℤ) : ℚ) - 1) = ((i : ℤ) : ℚ) := by
    push_cast
    ring
  rw [harg, pyInt_intCast]
  omega

/-- `discretize` is exactly inverse to `undiscretize` on valid volume
indices. -/
theorem volume_roundtrip (i : ℤ) (h0 : 0 ≤ i) (h9 : i ≤ 9) :
    _discretize_volume (_undiscretize_volume i) = i := by
  have harg : (_undiscretize_volume i - 25) / (50 - 25) * (((10:ℤ) : ℚ) - 1)
      = ((i : ℤ) : ℚ) := by
    unfold _undiscretize_volume
    dsimp only [BREW_VOLUME_BOUNDS, BREW_VOLUME_STEPS]
    push_cast
    ring
  unfold _discretize_volume
  dsimp only [BREW_VOLUME_BOUNDS, BREW_VOLUME_STEPS]
  rw [harg, pyInt_intCast]
  omega

/-- `discretize` is exactly inverse to `undiscretize` on valid dose
indices. -/
theorem dose_roundtrip (i : ℤ) (h0 : 0 ≤ i) (h9 : i ≤ 9) :
    _discretize_dose (_undiscretize_dose i) = i := by
  have harg : (_undiscretize_dose i - 15) / (25 - 15) * (((10:ℤ) : ℚ) - 1)
      = ((i : ℤ) : ℚ) := by
    unfold _undiscretize_dose
    dsimp only [COFFEE_DOSE_BOUNDS, COFFEE_DOSE_STEPS]
    push_cast
    ring
  unfold _discretize_dose
  dsimp only [COFFEE_DOSE_BOUNDS, COFFEE_DOSE_STEPS]
  rw [harg, pyInt_intCast]
  omega

/-- Integer grind settings in `[1, 30]` survive
discretize-then-undiscretize unchanged. -/
theorem grind_exact (g : ℤ) (h1 : 1 ≤ g) (h30 : g ≤ 30) :
    _undiscretize_grind (_discretize_grind ((g : ℤ) : ℚ)) = g := by
  have hdisc : _discretize_grind ((g : ℤ) : ℚ) = g - 1 := by
    unfold _discretize_grind
    dsimp only [GRIND_SIZE_BOUNDS, GRIND_SIZE_STEPS]
    have harg : (((g : ℤ) : ℚ) - 1) / (30 - 1) * (((30:ℤ) : ℚ) - 1) = ((g - 1 : ℤ) : ℚ) := by
      push_cast
      ring
    rw [harg, pyInt_intCast]
    omega
  rw [hdisc, undiscretize_grind_eq]
  omega

/-- Within-bounds volumes land within one (left-closed) bucket of their
round-trip image. -/
theorem volume_within_bucket (v : ℚ) (h1 : 25 ≤ v) (h2 : v ≤ 50) :
    0 ≤ v - _undiscretize_volume (_discretize_volume v)
    ∧ v - _undiscretize_volume (_discretize_volume v) < 25/9 := by
  have hx0 : 0 ≤ (v - 25) / (50 - 25) * (((10:ℤ) : ℚ) - 1) := by
    apply mul_nonneg (div_nonneg (by linarith) (by norm_num)) (by norm_num)
  have hx9 : (v - 25) / (50 - 25) * (((10:ℤ) : ℚ) - 1) ≤ 9 := by
    push_cast
    rw [div_mul_eq_mul_div, div_le_iff₀ (by norm_num : (0:ℚ) < 50 - 25)]
    linarith
  set q : ℚ := (v - 25) / (50 - 25) * (((10:ℤ) : ℚ) - 1) with hq
  have hfl0 : 0 ≤ ⌊q⌋ := Int.floor_nonneg.2 hx0
  have hfl9 : ⌊q⌋ ≤ 9 := by exact_mod_cast le_trans (Int.floor_le q) hx9
  have hdisc : _discretize_volume v = ⌊q⌋ := by
    unfold _discretize_volume
    dsimp only [BREW_VOLUME_BOUNDS, BREW_VOLUME_STEPS]
    rw [← hq, pyInt_eq_floor_of_nonneg q hx0]
    omega
  have hund : _undiscretize_volume ⌊q⌋ = 25 + (⌊q⌋ : ℚ) / 9 * 25 := by
    unfold _undiscretize_volume
    dsimp only [BREW_VOLUME_BOUNDS, BREW_VOLUME_STEPS]
    push_cast
    ring
  have hveq : v = 25 + q / 9 * 25 := by
    rw [hq]
    push_cast
    field_simp
    ring
  have hfr0 : (⌊q⌋ : ℚ) ≤ q := Int.floor_le q
  have hfr1 : q < (⌊q⌋ : ℚ) + 1 := Int.lt_floor_add_one q
  rw [hdisc, hund]
  constructor <;> linarith

/-- Within-bounds doses land within one (left-closed) bucket of their
round-trip image. -/
theorem dose_within_bucket (d : ℚ) (h1 : 15 ≤ d) (h2 : d ≤ 25) :
    0 ≤ d - _undiscretize_dose (_discretize_dose d)
    ∧ d - _undiscretize_dose (_discretize_dose d) < 10/9 := by
  have hx0 : 0 ≤ (d - 15) / (25 - 15) * (((10:ℤ) : ℚ) - 1) := by
    apply mul_nonneg (div_nonneg (by linarith) (by norm_num)) (by norm_num)
  have hx9 : (d - 15) / (25 - 15) * (((10:ℤ) : ℚ) - 1) ≤ 9 := by
    push_cast
    rw [div_mul_eq_mul_div, div_le_iff₀ (by norm_num : (0:ℚ) < 25 - 15)]
    linarith
  set q : ℚ := (d - 15) / (25 - 15) * (((10:ℤ) : ℚ) - 1) with hq
  have hfl0 : 0 ≤ ⌊q⌋ := Int.floor_nonneg.2 hx0
  have hfl9 : ⌊q⌋ ≤ 9 := by exact_mod_cast le_trans (Int.floor_le q) hx9
  have hdisc : _discretize_dose d = ⌊q⌋ := by
    unfold _discretize_dose
    dsimp only [COFFEE_DOSE_BOUNDS, COFFEE_DOSE_STEPS]
    rw [← hq, pyInt_eq_floor_of_nonneg q hx0]
    omega
  have hund : _undiscretize_dose ⌊q⌋ = 15 + (⌊q⌋ : ℚ) / 9 * 10 := by
    unfold _undiscretize_dose
    dsimp only [COFFEE_DOSE_BOUNDS, COFFEE_DOSE_STEPS]
    push_cast
    ring
  have hveq : d = 15 + q / 9 * 10 := by
    rw [hq]
    push_cast
    field_simp
    ring
  have hfr0 : (⌊q⌋ : ℚ) ≤ q := Int.floor_le q
  have hfr1 : q < (⌊q⌋ : ℚ) + 1 := Int.lt_floor_add_one q
  rw [hdisc, hund]
  constructor <;> linarith

/-- The claim of C3 fails on the code at a concrete input: the dose
`16.111 g` is within bounds but its round-trip image is `15 g`, an error
of `1.111 g > 1.11 g` (the true bucket width is `10/9 ≈ 1.112 g`). -/
theorem discretize_roundtrip_counterexample :
    15 ≤ (16111/1000 : ℚ) ∧ (16111/1000 : ℚ) ≤ 25
    ∧ ¬ (|(16111/1000 : ℚ) - _undiscretize_dose (_discretize_dose (16111/1000))| ≤ 111/100) := by
  have hfl : ⌊(9999/10000 : ℚ)⌋ = 0 := by
    rw [Int.floor_eq_iff]
    norm_num
  have hdisc : _discretize_dose (16111/1000) = 0 := by
    unfold _discretize_dose
    dsimp only [COFFEE_DOSE_BOUNDS, COFFEE_DOSE_STEPS]
    have harg : ((16111/1000 : ℚ) - 15) / (25 - 15) * (((10:ℤ) : ℚ) - 1) = 9999/10000 := by
      push_cast
      norm_num
    rw [harg, pyInt_eq_floor_of_nonneg _ (by norm_num), hfl]
    decide
  refine ⟨by norm_num, by norm_num, ?_⟩
  rw [hdisc]
  unfold _undiscretize_dose
  dsimp only [COFFEE_DOSE_BOUNDS, COFFEE_DOSE_STEPS]
  push_cast
  rw [abs_le]
  norm_num

/-- C3 (amended): `discretize ∘ undiscretize` is the identity on valid
index triples; for in-bounds actions, `undiscretize ∘ discretize` is the
identity on the grind dimension, moves volume by less than one bucket
width (`25/9 ≈ 2.778 ≤ 2.78` ml), and moves dose by less than one bucket
width, which is `10/9 ≈ 1.112` g (not at most `1.11` g as claimed). -/
theorem discretize_roundtrip_amended :
    (∀ g ∈ Finset.Icc (0:ℤ) 29, ∀ v ∈ Finset.Icc (0:ℤ) 9, ∀ d ∈ Finset.Icc (0:ℤ) 9,
        _discretize_grind ((action_from_indices g v d).grind_size) = g
        ∧ _discretize_volume ((action_from_indices g v d).brew_volume) = v
        ∧ _discretize_dose ((action_from_indices g v d).coffee_dose) = d)
    ∧ (∀ g : ℤ, 1 ≤ g → g ≤ 30 →
        _undiscretize_grind (_discretize_grind ((g : ℤ) : ℚ)) = g)
    ∧ (∀ v : ℚ, 25 ≤ v → v ≤ 50 →
        |v - _undiscretize_volume (_discretize_volume v)| ≤ 278/100)
    ∧ (∀ d : ℚ, 15 ≤ d → d ≤ 25 →
        |d - _undiscretize_dose (_discretize_dose d)| < 10/9) := by
  refine ⟨?_, ?_, ?_, ?_⟩
  · intro g hg v hv d hd
    rw [Finset.mem_Icc] at hg hv hd
    exact ⟨grind_roundtrip g hg.1 hg.2, volume_roundtrip v hv.1 hv.2,
      dose_roundtrip d hd.1 hd.2⟩
  · intro g hga hgb
    exact grind_exact g hga hgb
  · intro v hva hvb
    obtain ⟨hlo, hhi⟩ := volume_within_bucket v hva hvb
    rw [abs_of_nonneg hlo]
    exact le_of_lt (lt_of_lt_of_le hhi (by norm_num))
  · intro d hda hdb
    obtain ⟨hlo, hhi⟩ := dose_within_bucket d hda hdb
    rw [abs_of_nonneg hlo]
    exact hhi

/-- Witness for C3 (amended) at concrete indices and actions. -/
theorem discretize_roundtrip_amended_witness :
    (_discretize_grind ((action_from_indices 3 4 5).grind_size) = 3
      ∧ _discretize_volume ((action_from_indices 3 4 5).brew_volume) = 4
      ∧ _discretize_dose ((action_from_indices 3 4 5).coffee_dose) = 5)
    ∧ _undiscretize_grind (_discretize_grind ((17 : ℤ) : ℚ)) = 17
    ∧ |(40:ℚ) - _undiscretize_volume (_discretize_volume 40)| ≤ 278/100
    ∧ |(18:ℚ) - _undiscretize_dose (_discretize_dose 18)| < 10/9 :=
  ⟨discretize_roundtrip_amended.1 3 (by decide) 4 (by decide) 5 (by decide),
   discretize_roundtrip_amended.2.1 17 (by norm_num) (by norm_num),
   discretize_roundtrip_amended.2.2.1 40 (by norm_num) (by norm_num),
   discretize_roundtrip_amended.2.2.2 18 (by norm_num) (by norm_num)⟩

/-! ## C6 : evaluation validation -/

theorem checkRating_none_iff (n : String) (x : Option ℤ) :
    checkRating n x = none ↔ ratingOk x := by
  cases x with
  | none => simp [checkRating, ratingOk]
  | some v =>
    unfold checkRating ratingOk
    dsimp only
    split_ifs with h <;> simp_all

theorem checkRating_some_not (n : String) (x : Option ℤ) (msg : String)
    (h : checkRating n x = some msg) : ¬ ratingOk x := by
  intro hok
  rw [(checkRating_none_iff n x).2 hok] at h
  exact Option.noConfusion h

/-- C6: constructing an evaluation fails exactly when some provided
rating lies outside `[1, 10]` or a provided brew duration is
non-positive; on success every field is returned exactly as provided (no
clamping); and the all-absent evaluation is accepted. -/
theorem evaluation_validation (b a t o : Option ℤ) (bt : Option ℚ) (ch : Option ℤ) :
    ((mkBrewEvaluation b a t o bt ch).isOk = true ↔
      (ratingOk b ∧ ratingOk a ∧ ratingOk t ∧ ratingOk o ∧ ratingOk ch
        ∧ ∀ u, bt = some u → 0 < u))
    ∧ (∀ ev, mkBrewEvaluation b a t o bt ch = .ok ev →
        ev = { bitterness := b, acidity := a, taste_strength := t,
               overall_experience := o, brew_time := bt, channeling := ch })
    ∧ (mkBrewEvaluation none none none none none none).isOk = true := by
  refine ⟨?_, ?_, rfl⟩
  · cases hb : checkRating "bitterness" b with
    | some msg => simp [mkBrewEvaluation, hb, Except.isOk, Except.toBool, checkRating_some_not _ _ _ hb]
    | none =>
    cases ha : checkRating "acidity" a with
    | some msg => simp [mkBrewEvaluation, hb, ha, Except.isOk, Except.toBool, checkRating_some_not _ _ _ ha]
    | none =>
    cases ht : checkRating "taste_strength" t with
    | some msg => simp [mkBrewEvaluation, hb, ha, ht, Except.isOk, Except.toBool, checkRating_some_not _ _ _ ht]
    | none =>
    cases ho : checkRating "overall_experience" o with
    | some msg => simp [mkBrewEvaluation, hb, ha, ht, ho, Except.isOk, Except.toBool, checkRating_some_not _ _ _ ho]
    | none =>
    cases hch : checkRating "channeling" ch with
    | some msg => simp [mkBrewEvaluation, hb, ha, ht, ho, hch, Except.isOk, Except.toBool, checkRating_some_not _ _ _ hch]
    | none =>
      have hb' := (checkRating_none_iff _ b).1 hb
      have ha' := (checkRating_none_iff _ a).1 ha
      have ht' := (checkRating_none_iff _ t).1 ht
      have ho' := (checkRating_none_iff _ o).1 ho
      have hch' := (checkRating_none_iff _ ch).1 hch
      cases bt with
      | none => simp [mkBrewEvaluation, hb, ha, ht, ho, hch, Except.isOk, Except.toBool, hb', ha', ht', ho', hch']
      | some u =>
        by_cases hu : u ≤ 0
        · simp [mkBrewEvaluation, hb, ha, ht, ho, hch, Except.isOk, Except.toBool, hb', ha', ht', ho', hch', hu]
        · simp [mkBrewEvaluation, hb, ha, ht, ho, hch, Except.isOk, Except.toBool, hb', ha', ht', ho', hch', hu]
          exact not_le.1 hu
  · intro ev hev
    unfold mkBrewEvaluation at hev
    repeat' split at hev
    all_goals
      first
        | exact Except.noConfusion hev
        | (injection hev with h; exact h.symm)

/-- Witness for C6 at concrete field values. -/
theorem evaluation_validation_witness :
    ((mkBrewEvaluation (some 5) none none (some 9) (some 30) (some 2)).isOk = true ↔
      (ratingOk (some 5) ∧ ratingOk none ∧ ratingOk none ∧ ratingOk (some 9)
        ∧ ratingOk (some 2) ∧ ∀ u, (some (30:ℚ)) = some u → 0 < u))
    ∧ (∀ ev, mkBrewEvaluation (some 5) none none (some 9) (some 30) (some 2) = .ok ev →
        ev = { bitterness := some 5, acidity := none, taste_strength := none,
               overall_experience := some 9, brew_time := some 30, channeling := some 2 })
    ∧ (mkBrewEvaluation none none none none none none).isOk = true :=
  evaluation_validation (some 5) none none (some 9) (some 30) (some 2)

/-! ## C8 : malformed persisted action keys -/

theorem getRowVivify_none (t : QTable) (s : String)
    (h : tableFindRow t s = none) :
    getRowVivify t s = ([], t ++ [(s, [])]) := by
  unfold getRowVivify
  rw [h]

theorem getRowVivify_some (t : QTable) (s : String) (r : QRow)
    (h : tableFindRow t s = some r) :
    getRowVivify t s = (r, t) := by
  unfold getRowVivify
  rw [h]

theorem argmaxEntry_mem (l : QRow) : ∀ e : String × ℚ, argmaxEntry e l ∈ e :: l := by
  induction l with
  | nil => intro e; simp [argmaxEntry]
  | cons x xs ih =>
    intro e
    by_cases h : e.2 < x.2
    · simp only [argmaxEntry, if_pos h]
      exact List.mem_cons_of_mem e (ih x)
    · simp only [argmaxEntry, if_neg h]
      rcases List.mem_cons.1 (ih e) with h1 | h1
      · rw [h1]; exact List.mem_cons_self e (x :: xs)
      · exact List.mem_cons_of_mem e (List.mem_cons_of_mem x h1)

theorem mem_insertDesc (x y : String × ℚ) (l : QRow)
    (h : x ∈ insertDesc y l) : x = y ∨ x ∈ l := by
  induction l with
  | nil => simpa [insertDesc] using h
  | cons z zs ih =>
    by_cases hz : z.2 < y.2
    · simp only [insertDesc, if_pos hz] at h
      rcases List.mem_cons.1 h with h1 | h1
      · exact Or.inl h1
      · exact Or.inr h1
    · simp only [insertDesc, if_neg hz] at h
      rcases List.mem_cons.1 h with h1 | h1
      · exact Or.inr (List.mem_cons.2 (Or.inl h1))
      · rcases ih h1 with h2 | h2
        · exact Or.inl h2
        · exact Or.inr (List.mem_cons.2 (Or.inr h2))

theorem mem_foldl_insertDesc (x : String × ℚ) (l : QRow) :
    ∀ acc : QRow,
      x ∈ l.foldl (fun acc y => insertDesc y acc) acc → x ∈ acc ∨ x ∈ l := by
  induction l with
  | nil => intro acc h1; exact Or.inl h1
  | cons z zs ih =>
    intro acc h1
    simp only [List.foldl_cons] at h1
    rcases ih (insertDesc z acc) h1 with h2 | h2
    · rcases mem_insertDesc x z acc h2 with h3 | h3
      · exact Or.inr (List.mem_cons.2 (Or.inl h3))
      · exact Or.inl h3
    · exact Or.inr (List.mem_cons.2 (Or.inr h2))

theorem mem_sortDescByValue (l : QRow) (x : String × ℚ)
    (h : x ∈ sortDescByValue l) : x ∈ l := by
  unfold sortDescByValue at h
  rcases mem_foldl_insertDesc x l [] h with h1 | h1
  · simp at h1
  · exact h1

/-- C8: a restored table with malformed action keys is accepted in full,
and lookups degrade to the baseline action: the exploit-branch best-action
lookup returns the baseline when the best-valued key is malformed, and
`bestActions` returns `[(baseline, 0.0)]` when every key of the row is
malformed; nothing aborts. -/
theorem malformed_keys_tolerated (ag : BrewingAgent) (data : QTable)
    (st : BrewState) (k : ℕ) (e : String × ℚ) (rest : QRow)
    (hrow : tableFindRow (load_q_table ag data).q_table (state_to_key st)
      = some (e :: rest)) :
    (load_q_table ag data).q_table = loadedTable data
    ∧ (parse_action_key (argmaxEntry e rest).1 = none →
        (get_best_action (load_q_table ag data).q_table (state_to_key st) st).1
          = get_baseline_action st)
    ∧ ((∀ kv ∈ e :: rest, parse_action_key kv.1 = none) →
        (get_action_recommendations (load_q_table ag data) st k).1
          = [(get_baseline_action st, 0)]) := by
  refine ⟨rfl, ?_, ?_⟩
  · intro hparse
    unfold get_best_action
    dsimp only
    rw [getRowVivify_some _ _ _ hrow]
    simp only [hparse]
  · intro hall
    unfold get_action_recommendations
    dsimp only
    rw [getRowVivify_some _ _ _ hrow]
    dsimp only
    have hnil : ((sortDescByValue (e :: rest)).take k).filterMap
        (fun av => match parse_action_key av.1 with
          | some (g, v, d) => some (action_from_indices g v d, av.2)
          | none => none) = [] := by
      rw [List.filterMap_eq_nil_iff]
      intro av hav
      have hmem : av ∈ e :: rest :=
        mem_sortDescByValue _ av (List.mem_of_mem_take hav)
      rw [hall av hmem]
    simp only [hnil]

/-- Witness for C8 on a concrete table holding a wrong-field-count key
and a non-numeric key. -/
theorem malformed_keys_tolerated_witness :
    (load_q_table {} [("False_3", [("1_2", 5), ("x_y_z", 3)])]).q_table
      = loadedTable [("False_3", [("1_2", 5), ("x_y_z", 3)])]
    ∧ (get_best_action
        (load_q_table {} [("False_3", [("1_2", 5), ("x_y_z", 3)])]).q_table
        (state_to_key ⟨false, 3⟩) ⟨false, 3⟩).1
      = get_baseline_action ⟨false, 3⟩
    ∧ (get_action_recommendations
        (load_q_table {} [("False_3", [("1_2", 5), ("x_y_z", 3)])]) ⟨false, 3⟩ 3).1
      = [(get_baseline_action ⟨false, 3⟩, 0)] := by
  have h := malformed_keys_tolerated {} [("False_3", [("1_2", 5), ("x_y_z", 3)])]
    ⟨false, 3⟩ 3 ("1_2", 5) [("x_y_z", 3)] (by decide)
  exact ⟨h.1, h.2.1 (by decide), h.2.2 (by decide)⟩

/-! ## C10 : defaultdict vivification by read-only queries -/

/-- C10: on a context whose state key has no row, `bestActions` and the
exploit branch of `suggestAction` insert an empty row for that key, so a
subsequent snapshot contains the key mapped to an empty mapping, while
every stored-value lookup still reads the same value (missing entries
still read `0.0`). -/
theorem readonly_queries_vivify (ag : BrewingAgent) (st : BrewState) (k : ℕ)
    (draw : ℚ) (rand_action : BrewAction)
    (hmiss : tableFindRow ag.q_table (state_to_key st) = none)
    (hexploit : ¬ draw < ag.epsilon) :
    tableFindRow (get_q_table (get_action_recommendations ag st k).2)
        (state_to_key st) = some []
    ∧ (∀ s a, tableGet (get_action_recommendations ag st k).2.q_table s a
        = tableGet ag.q_table s a)
    ∧ tableFindRow (get_q_table (suggest_action ag st draw rand_action).2)
        (state_to_key st) = some []
    ∧ (∀ s a, tableGet (suggest_action ag st draw rand_action).2.q_table s a
        = tableGet ag.q_table s a) := by
  have hrec : (get_action_recommendations ag st k).2
      = { ag with q_table := ag.q_table ++ [(state_to_key st, [])] } := by
    unfold get_action_recommendations
    dsimp only
    rw [getRowVivify_none _ _ hmiss]
  have hsug : (suggest_action ag st draw rand_action).2.q_table
      = ag.q_table ++ [(state_to_key st, [])] := by
    unfold suggest_action
    dsimp only
    rw [if_neg hexploit]
    unfold get_best_action
    dsimp only
    rw [getRowVivify_none _ _ hmiss]
  refine ⟨?_, ?_, ?_, ?_⟩
  · rw [hrec]
    exact tableFindRow_append_single_of_none _ _ hmiss
  · intro s a
    rw [hrec]
    exact tableGet_append_empty_row _ _ _ _
  · unfold get_q_table
    rw [hsug]
    exact tableFindRow_append_single_of_none _ _ hmiss
  · intro s a
    rw [hsug]
    exact tableGet_append_empty_row _ _ _ _

/-- Witness for C10 on a fresh agent. -/
theorem readonly_queries_vivify_witness :
    tableFindRow (get_q_table (get_action_recommendations {} ⟨false, 3⟩ 3).2)
        (state_to_key ⟨false, 3⟩) = some []
    ∧ (∀ s a, tableGet (get_action_recommendations {} ⟨false, 3⟩ 3).2.q_table s a
        = tableGet (BrewingAgent.q_table {}) s a)
    ∧ tableFindRow (get_q_table
        (suggest_action {} ⟨false, 3⟩ (1/2) (get_baseline_action ⟨false, 3⟩)).2)
        (state_to_key ⟨false, 3⟩) = some []
    ∧ (∀ s a, tableGet
        (suggest_action {} ⟨false, 3⟩ (1/2) (get_baseline_action ⟨false, 3⟩)).2.q_table s a
        = tableGet (BrewingAgent.q_table {}) s a) :=
  readonly_queries_vivify {} ⟨false, 3⟩ 3 (1/2) (get_baseline_action ⟨false, 3⟩)
    (by rfl) (by norm_num)

/-! ## C9 : the discount factor is inert -/

theorem step_discount_inert (ag : BrewingAgent) (d : ℚ) (e : AgentEvent) :
    agentStep { ag with discount_factor := d } e
      = ({ (agentStep ag e).1 with discount_factor := d }, (agentStep ag e).2) := by
  cases e with
  | suggest st draw ra => simp only [agentStep, suggest_action]
  | learn ev =>
    cases hs : ag.last_state_key with
    | none => simp [agentStep, learn_from_evaluation, hs]
    | some s =>
      cases ha : ag.last_action_key with
      | none => simp [agentStep, learn_from_evaluation, hs, ha]
      | some a => simp [agentStep, learn_from_evaluation, hs, ha]
  | best st k =>
    simp only [agentStep, get_action_recommendations]
    repeat' split
    all_goals simp_all
  | snapshot => simp [agentStep, get_q_table]
  | reset => simp [agentStep, reset_last_action]

/-- C9: the discount factor has no effect on behaviour: for identically
configured agents differing only in discount factor, driven by any
identical call sequence with identical random draws, every output is
identical and the final states agree on the value table, cursor, epsilon,
and every other field except the discount factor itself. -/
theorem discount_factor_inert (ag : BrewingAgent) (d : ℚ) (evs : List AgentEvent) :
    agentRun { ag with discount_factor := d } evs
      = ({ (agentRun ag evs).1 with discount_factor := d }, (agentRun ag evs).2) := by
  induction evs generalizing ag with
  | nil => simp [agentRun]
  | cons e es ih =>
    have hstep := step_discount_inert ag d e
    rcases h1 : agentStep ag e with ⟨ag1, out⟩
    rw [h1] at hstep
    rcases h2 : agentRun ag1 es with ⟨agF, outs⟩
    have ih1 := ih ag1
    rw [h2] at ih1
    simp only [agentRun, hstep, h1, h2, ih1]

end Carla

